import Mathlib

/-!
Verification of the Hotas-Controller core against its specification.

This file gives a shallow embedding, in Lean 4, of the parts of the
Hotas-Controller C++ sources that the specification talks about:

* the per-signal analog rate limiter and gated digital debounce of
  `FilteredForwarder::apply_filter` (src/unnamed/part_000);
* the LSB-first bit-field extractor `extract_bits` of the HOTAS
  background loop (src/unnamed/part_002);
* the axis/button resolver and the keyboard auto-repeat logic of
  `HotasMapper::publisher_thread_main` (src/unnamed/part_001);
* the report conversions `to_short` / `to_trig` and the Y-axis sign
  inversion of the publisher (src/unnamed/part_000, part_001);
* the single-writer ring buffer `SampleRing` (src/src/core/ring_buffer.hpp);
* the virtual-output enable logic `FilteredForwarder::enable_output`
  (src/unnamed/part_000, src/src/xinput/filtered_forwarder.hpp).

C++ `float`/`double` arithmetic is modelled over `ℚ`; the values involved
in the specified properties (clamps, comparisons, small decimal constants)
are exact in both. C-style casts to integer types are modelled as
truncation toward zero. External effects (the ViGEm bus, `SendInput`) are
modelled as oracles/event lists.
-/

/-! ## Analog rate limiter (FilteredForwarder::apply_filter, part_000 lines 230-236)

```
auto apply_analog_filter = [&](float &cur, float prev) {
    float dv = cur - prev;
    float range = ((prev >= 0.0f && prev <= 1.0f) && (cur >= 0.0f && cur <= 1.0f)) ? 1.0f : 2.0f;
    float max_step = (_analog_rate_pct / 100.0f) * range;
    if (dv > max_step) cur = prev + max_step;
    else if (dv < -max_step) cur = prev - max_step;
};
```
`prev` is the previous filtered value (`_prev` holds the filtered state at
the end of `apply_filter`). The very first `apply_filter` call returns
before filtering, so the first sample passes through and initializes the
previous-value state. -/

def apply_analog_filter (rate_pct : ℚ) (cur prev : ℚ) : ℚ :=
  let dv := cur - prev
  let range : ℚ := if (0 ≤ prev ∧ prev ≤ 1) ∧ (0 ≤ cur ∧ cur ≤ 1) then 1 else 2
  let max_step := rate_pct / 100 * range
  if dv > max_step then prev + max_step
  else if dv < -max_step then prev - max_step
  else cur

/-- Filtered outputs for the samples after the first, carrying the previous
filtered value. -/
def runAnalogAux (rate_pct : ℚ) (prev : ℚ) : List ℚ → List ℚ
  | [] => []
  | c :: rest =>
    let o := apply_analog_filter rate_pct c prev
    o :: runAnalogAux rate_pct o rest

/-- Sequence semantics of the analog-mode filter: first sample passes
through unchanged (and becomes the initial previous filtered value). -/
def runAnalog (rate_pct : ℚ) : List ℚ → List ℚ
  | [] => []
  | c :: rest => c :: runAnalogAux rate_pct c rest

theorem runAnalogAux_length (rate_pct prev : ℚ) (xs : List ℚ) :
    (runAnalogAux rate_pct prev xs).length = xs.length := by
  induction xs generalizing prev with
  | nil => rfl
  | cons c rest ih => simp [runAnalogAux, ih]

theorem runAnalog_length (rate_pct : ℚ) (xs : List ℚ) :
    (runAnalog rate_pct xs).length = xs.length := by
  cases xs with
  | nil => rfl
  | cons c rest => simp [runAnalog, runAnalogAux_length]

theorem runAnalogAux_cons (rate_pct prev c : ℚ) (rest : List ℚ) :
    runAnalogAux rate_pct prev (c :: rest) =
      apply_analog_filter rate_pct c prev ::
        runAnalogAux rate_pct (apply_analog_filter rate_pct c prev) rest := rfl

theorem runAnalogAux_step (rate_pct : ℚ) :
    ∀ (xs : List ℚ) (prev : ℚ) (k : ℕ), k + 1 < xs.length →
      (runAnalogAux rate_pct prev xs).getD (k + 1) 0 =
        apply_analog_filter rate_pct (xs.getD (k + 1) 0)
          ((runAnalogAux rate_pct prev xs).getD k 0) := by
  intro xs
  induction xs with
  | nil => intro prev k hk; simp at hk
  | cons c rest ih =>
    intro prev k hk
    cases k with
    | zero =>
      cases rest with
      | nil => simp at hk
      | cons d rest2 =>
        simp [runAnalogAux_cons]
    | succ j =>
      have hj : j + 1 < rest.length := by simpa using hk
      simpa [runAnalogAux_cons] using ih (apply_analog_filter rate_pct c prev) j hj

/-- Per-step bound: one filter step moves the output by at most
`rate_pct/100 * 2` away from the previous filtered value (the per-step cap
is `rate_pct/100 * range` with `range ∈ {1, 2}`). -/
theorem apply_analog_filter_close (rate_pct cur prev : ℚ) (hr : 0 ≤ rate_pct) :
    |apply_analog_filter rate_pct cur prev - prev| ≤ rate_pct / 100 * 2 := by
  unfold apply_analog_filter
  have h100 : 0 ≤ rate_pct / 100 := by positivity
  split
  · -- range = 1
    have hms : 0 ≤ rate_pct / 100 * 1 := by positivity
    have hle : rate_pct / 100 * 1 ≤ rate_pct / 100 * 2 := by nlinarith
    dsimp only
    split
    · rw [abs_of_nonneg (by linarith [hms])]; linarith
    · split
      · rw [show prev - rate_pct / 100 * 1 - prev = -(rate_pct / 100 * 1) by ring,
          abs_neg, abs_of_nonneg hms]
        exact hle
      · rw [abs_le]; constructor <;> nlinarith
  · -- range = 2
    have hms : 0 ≤ rate_pct / 100 * 2 := by positivity
    dsimp only
    split
    · rw [abs_of_nonneg (by linarith [hms])]; linarith
    · split
      · rw [show prev - rate_pct / 100 * 2 - prev = -(rate_pct / 100 * 2) by ring,
          abs_neg, abs_of_nonneg hms]
      · rw [abs_le]; constructor <;> nlinarith

/-- C1 counterexample: with `analog_rate_pct = 10`, the input sequence
`0.00, 0.50, 0.55, 0.10` is filtered to `0.00, 0.10, 0.20, 0.10` — not to
the claimed `0.00, 0.20, 0.40, 0.20` — because both endpoints lie in
`[0, 1]`, so the source computes `range = 1` (max_step `0.1`), not the
claimed `range = 2` (max_step `0.2`). -/
theorem analog_rate_s3_counterexample :
    runAnalog 10 [0, 1/2, 11/20, 1/10] = [0, 1/10, 1/5, 1/10] ∧
    runAnalog 10 [0, 1/2, 11/20, 1/10] ≠ [0, 1/5, 2/5, 1/5] := by
  constructor <;> norm_num [runAnalog, runAnalogAux, apply_analog_filter]

/-- C1 (amended): the analog-mode filter passes the first sample through,
applies `apply_analog_filter` stepwise with the previous *filtered* value,
whose per-step cap is `(analog_rate_pct/100) * range` with `range = 1` when
both the previous filtered value and the current sample lie in `[0, 1]` and
`range = 2` otherwise; consequently consecutive outputs always differ by at
most `(analog_rate_pct/100) * 2`, and with `analog_rate_pct = 10` the input
`0.00, 0.50, 0.55, 0.10` yields `0.00, 0.10, 0.20, 0.10`. -/
theorem analog_rate_limit_amended (rate_pct : ℚ) (hr : 0 ≤ rate_pct)
    (input : List ℚ) :
    (runAnalog rate_pct input).length = input.length ∧
    (runAnalog rate_pct input).getD 0 0 = input.getD 0 0 ∧
    (∀ k, k + 1 < input.length →
      (runAnalog rate_pct input).getD (k + 1) 0 =
        apply_analog_filter rate_pct (input.getD (k + 1) 0)
          ((runAnalog rate_pct input).getD k 0)) ∧
    (∀ k, k + 1 < input.length →
      |(runAnalog rate_pct input).getD (k + 1) 0 -
        (runAnalog rate_pct input).getD k 0| ≤ rate_pct / 100 * 2) ∧
    runAnalog 10 [0, 1/2, 11/20, 1/10] = [0, 1/10, 1/5, 1/10] := by
  have hstep : ∀ k, k + 1 < input.length →
      (runAnalog rate_pct input).getD (k + 1) 0 =
        apply_analog_filter rate_pct (input.getD (k + 1) 0)
          ((runAnalog rate_pct input).getD k 0) := by
    intro k hk
    cases input with
    | nil => simp at hk
    | cons c rest =>
      cases k with
      | zero =>
        cases rest with
        | nil => simp at hk
        | cons d rest2 => simp [runAnalog, runAnalogAux_cons]
      | succ j =>
        have hj : j + 1 < rest.length := by simpa using hk
        simpa [runAnalog] using runAnalogAux_step rate_pct rest c j hj
  refine ⟨runAnalog_length rate_pct input, ?_, hstep, ?_,
    by norm_num [runAnalog, runAnalogAux, apply_analog_filter]⟩
  · cases input with
    | nil => rfl
    | cons c rest => simp [runAnalog]
  · intro k hk
    rw [hstep k hk]
    exact apply_analog_filter_close rate_pct (input.getD (k + 1) 0)
      ((runAnalog rate_pct input).getD k 0) hr

/-- C1 witness: the amended theorem instantiated at `rate_pct = 10` and the
scenario input from the specification. -/
theorem analog_rate_limit_amended_witness :
    (0 : ℚ) ≤ 10 ∧
      (runAnalog 10 [0, 1/2, 11/20, 1/10]).length =
        ([0, 1/2, 11/20, 1/10] : List ℚ).length :=
  ⟨by norm_num, (analog_rate_limit_amended 10 (by norm_num) [0, 1/2, 11/20, 1/10]).1⟩

/-! ## Gated digital debounce (FilteredForwarder::apply_filter, part_000 lines 238-254)

```
auto apply_digital_filter = [&](bool &now, bool prev, int btn_idx) {
    double &rise = _rise_time[btn_idx];
    bool &active = _btn_active[btn_idx];
    if (now && !prev) {
        rise = t; active = false;             // rising edge detected, not yet promoted
    } else if (now && prev) {
        if (!active && rise >= 0.0) {
            double dur = t - rise;
            if (dur >= _digital_max) active = true;   // promoted after duration
        }
    } else if (!now && prev) {
        active = false; rise = -1.0;          // release
    } else {
        rise = -1.0; active = false;          // stable low
    }
    _btn_prev_raw[btn_idx] = now;
};
```
The per-button state is `(rise, active, prev_raw)` with initial values
`(-1.0, false, false)`. The mode-1 output for the button is `active`. The
very first `process` call passes the raw value through without running the
state machine (and without updating `prev_raw`). -/

structure DigState where
  rise : ℚ
  active : Bool
  prevRaw : Bool
deriving DecidableEq

def digInit : DigState := { rise := -1, active := false, prevRaw := false }

def apply_digital_filter (hold : ℚ) (t : ℚ) (now : Bool) (s : DigState) : DigState :=
  if now ∧ ¬s.prevRaw then
    { rise := t, active := false, prevRaw := now }
  else if now ∧ s.prevRaw then
    { rise := s.rise,
      active := if ¬s.active ∧ 0 ≤ s.rise ∧ hold ≤ t - s.rise then true else s.active,
      prevRaw := now }
  else if ¬now ∧ s.prevRaw then
    { rise := -1, active := false, prevRaw := now }
  else
    { rise := -1, active := false, prevRaw := now }

/-- Outputs (the `active` flag after each step) for the samples after the
first one. -/
def runDigitalAux (hold : ℚ) (s : DigState) : List (ℚ × Bool) → List Bool
  | [] => []
  | (t, v) :: rest =>
    let s2 := apply_digital_filter hold t v s
    s2.active :: runDigitalAux hold s2 rest

/-- Sequence semantics of the digital-binary gated filter for one button in
mode 1: the first `process` call passes the raw value through and leaves the
state untouched; later calls run the state machine and output `active`. -/
def runDigital (hold : ℚ) : List (ℚ × Bool) → List Bool
  | [] => []
  | (_, v) :: rest => v :: runDigitalAux hold digInit rest

/-- Input sequence holding a single rising-then-falling pulse: low samples
at the times in `pre`, high samples at the times in `hs`, low samples at
the times in `post`. -/
def pulseInput (pre hs post : List ℚ) : List (ℚ × Bool) :=
  pre.map (fun t => (t, false)) ++ hs.map (fun t => (t, true)) ++
    post.map (fun t => (t, false))

theorem runDigitalAux_nil (hold : ℚ) (s : DigState) :
    runDigitalAux hold s [] = [] := rfl

theorem runDigitalAux_cons (hold t : ℚ) (v : Bool) (s : DigState)
    (rest : List (ℚ × Bool)) :
    runDigitalAux hold s ((t, v) :: rest) =
      (apply_digital_filter hold t v s).active ::
        runDigitalAux hold (apply_digital_filter hold t v s) rest := rfl

/-- Processing a low sample from the idle-low state stays in the idle-low
state and outputs `false`. -/
theorem runDigitalAux_lows (hold : ℚ) (ts : List ℚ) (rest : List (ℚ × Bool)) :
    runDigitalAux hold digInit (ts.map (fun t => (t, false)) ++ rest) =
      ts.map (fun _ => false) ++ runDigitalAux hold digInit rest := by
  induction ts with
  | nil => rfl
  | cons t ts ih =>
    have hstep : apply_digital_filter hold t false digInit = digInit := by
      simp [apply_digital_filter, digInit]
    rw [List.map_cons, List.cons_append, runDigitalAux_cons, hstep, ih]
    simp [digInit]

/-- Processing the high samples after the rising edge: the rise time stays
at `t0`, and the output at a held-high sample of time `t` is
`a || (t0 + hold ≤ t)` where `a` was the promoted flag before it
(promotion is sticky and the times are strictly increasing). -/
theorem runDigitalAux_highs (hold t0 : ℚ) (h0 : 0 ≤ t0) :
    ∀ (ts : List ℚ) (a : Bool) (rest : List (ℚ × Bool)),
      ts.Pairwise (· < ·) →
      ∃ a2, runDigitalAux hold { rise := t0, active := a, prevRaw := true }
          (ts.map (fun t => (t, true)) ++ rest) =
        ts.map (fun t => a || decide (t0 + hold ≤ t)) ++
          runDigitalAux hold { rise := t0, active := a2, prevRaw := true } rest := by
  intro ts
  induction ts with
  | nil => exact fun a rest _ => ⟨a, rfl⟩
  | cons t ts ih =>
    intro a rest hpw
    have hhead : ∀ u ∈ ts, t < u := (List.pairwise_cons.mp hpw).1
    have hpw2 : ts.Pairwise (· < ·) := (List.pairwise_cons.mp hpw).2
    have hstep : apply_digital_filter hold t true { rise := t0, active := a, prevRaw := true } =
        { rise := t0, active := a || decide (t0 + hold ≤ t), prevRaw := true } := by
      cases a with
      | false =>
        have h1 : decide (0 ≤ t0) = true := decide_eq_true h0
        have h2 : decide (hold ≤ t - t0) = decide (t0 + hold ≤ t) :=
          decide_eq_decide.mpr ⟨fun h => by linarith, fun h => by linarith⟩
        simp [apply_digital_filter, h1, h2]
      | true =>
        simp [apply_digital_filter]
    obtain ⟨a2, ha2⟩ := ih (a || decide (t0 + hold ≤ t)) rest hpw2
    refine ⟨a2, ?_⟩
    calc runDigitalAux hold { rise := t0, active := a, prevRaw := true }
          (((t :: ts).map (fun t => (t, true))) ++ rest)
        = (a || decide (t0 + hold ≤ t)) ::
            runDigitalAux hold { rise := t0, active := a || decide (t0 + hold ≤ t), prevRaw := true }
              (ts.map (fun t => (t, true)) ++ rest) := by
          simp [runDigitalAux_cons, hstep]
      _ = (a || decide (t0 + hold ≤ t)) ::
            (ts.map (fun u => (a || decide (t0 + hold ≤ t)) || decide (t0 + hold ≤ u)) ++
              runDigitalAux hold { rise := t0, active := a2, prevRaw := true } rest) := by
          rw [ha2]
      _ = ((t :: ts).map (fun u => a || decide (t0 + hold ≤ u))) ++
            runDigitalAux hold { rise := t0, active := a2, prevRaw := true } rest := by
          have hmap : ts.map (fun u => a || decide (t0 + hold ≤ t) || decide (t0 + hold ≤ u)) =
              ts.map (fun u => a || decide (t0 + hold ≤ u)) := by
            apply List.map_congr_left
            intro u hu
            cases hd : decide (t0 + hold ≤ t) with
            | false => simp
            | true =>
              have h3 : t0 + hold ≤ u :=
                le_of_lt (lt_of_le_of_lt (of_decide_eq_true hd) (hhead u hu))
              simp [h3]
          rw [List.map_cons, List.cons_append, hmap]

/-- A falling edge followed by low samples outputs `false` everywhere,
whatever the incoming promoted flag was. -/
theorem runDigitalAux_post (hold t0 : ℚ) (a : Bool) (f : ℚ) (frest : List ℚ) :
    runDigitalAux hold { rise := t0, active := a, prevRaw := true }
        ((f :: frest).map (fun t => (t, false))) =
      (f :: frest).map (fun _ => false) := by
  have hstep : apply_digital_filter hold f false { rise := t0, active := a, prevRaw := true } =
      digInit := by
    simp [apply_digital_filter, digInit]
  simp only [List.map_cons, runDigitalAux_cons, hstep]
  simpa [digInit, runDigitalAux_nil] using runDigitalAux_lows hold frest []

/-- C2 (amended): for a single rising-then-falling pulse (with at least one
low sample before the rising edge, sample times strictly increasing and the
rise time non-negative), every sample before the rising edge and the rising
sample itself output 0, a held-high sample of time `t` outputs 1 exactly
when `rise_time + digital_min_hold_sec ≤ t`, and every sample from the
falling edge on outputs 0. Moreover if the pulse falls again within less
than `digital_min_hold_sec` of the rise (`fall − rise < hold`), the output
is 0 at every sample. For `hold > 0` this is exactly the claimed
`[rise + hold, fall)` window; for `hold = 0` the rising sample is excluded
even though it lies in that window. -/
theorem digital_pulse_amended (hold p0 t0 : ℚ) (prest hrest post : List ℚ)
    (h0 : 0 ≤ t0)
    (hsorted : ((p0 :: prest) ++ (t0 :: hrest) ++ post).Pairwise (· < ·)) :
    runDigital hold (pulseInput (p0 :: prest) (t0 :: hrest) post) =
      (p0 :: prest).map (fun _ => false) ++
        (false :: hrest.map (fun t => decide (t0 + hold ≤ t))) ++
        post.map (fun _ => false) ∧
    (∀ f frest, post = f :: frest → f - t0 < hold →
      runDigital hold (pulseInput (p0 :: prest) (t0 :: hrest) post) =
        (pulseInput (p0 :: prest) (t0 :: hrest) post).map (fun _ => false)) := by
  rw [List.append_assoc, List.pairwise_append] at hsorted
  obtain ⟨hpre, hmid, hcross⟩ := hsorted
  rw [List.pairwise_append] at hmid
  obtain ⟨hhs, hpost, hcross2⟩ := hmid
  have hhrest : hrest.Pairwise (· < ·) := (List.pairwise_cons.mp hhs).2
  have hrise : apply_digital_filter hold t0 true digInit =
      { rise := t0, active := false, prevRaw := true } := by
    simp [apply_digital_filter, digInit]
  have hmain : runDigital hold (pulseInput (p0 :: prest) (t0 :: hrest) post) =
      (p0 :: prest).map (fun _ => false) ++
        (false :: hrest.map (fun t => decide (t0 + hold ≤ t))) ++
        post.map (fun _ => false) := by
    obtain ⟨a2, ha2⟩ := runDigitalAux_highs hold t0 h0 hrest false
      (post.map (fun t => (t, false))) hhrest
    have hpostrun : runDigitalAux hold { rise := t0, active := a2, prevRaw := true }
        (post.map (fun t => (t, false))) = post.map (fun _ => false) := by
      cases post with
      | nil => simp [runDigitalAux_nil]
      | cons f frest => exact runDigitalAux_post hold t0 a2 f frest
    calc runDigital hold (pulseInput (p0 :: prest) (t0 :: hrest) post)
        = false :: runDigitalAux hold digInit
            (prest.map (fun t => (t, false)) ++
              (((t0, true) :: hrest.map (fun t => (t, true))) ++
                post.map (fun t => (t, false)))) := by
          simp [pulseInput, runDigital]
      _ = false :: (prest.map (fun _ => false) ++
            runDigitalAux hold digInit
              (((t0, true) :: hrest.map (fun t => (t, true))) ++
                post.map (fun t => (t, false)))) := by
          rw [runDigitalAux_lows]
      _ = false :: (prest.map (fun _ => false) ++
            (false :: runDigitalAux hold { rise := t0, active := false, prevRaw := true }
              (hrest.map (fun t => (t, true)) ++ post.map (fun t => (t, false))))) := by
          rw [List.cons_append, runDigitalAux_cons, hrise]
      _ = false :: (prest.map (fun _ => false) ++
            (false :: (hrest.map (fun t => false || decide (t0 + hold ≤ t)) ++
              post.map (fun _ => false)))) := by
          rw [ha2, hpostrun]
      _ = (p0 :: prest).map (fun _ => false) ++
            (false :: hrest.map (fun t => decide (t0 + hold ≤ t))) ++
            post.map (fun _ => false) := by
          simp
  refine ⟨hmain, ?_⟩
  rintro f frest rfl hshort
  rw [hmain]
  have hzero : ∀ t ∈ hrest, decide (t0 + hold ≤ t) = false := by
    intro t ht
    have htf : t < f :=
      hcross2 t (by simp [ht]) f (by simp)
    have : ¬(t0 + hold ≤ t) := by
      intro hle
      have : f ≤ t := by linarith
      linarith
    simpa using this
  have hmap0 : hrest.map (fun t => decide (t0 + hold ≤ t)) =
      hrest.map (fun _ => false) := List.map_congr_left hzero
  rw [hmap0]
  simp [pulseInput]

/-- C2 counterexample: with `digital_min_hold_sec = 0` and the pulse low at
t=0, high at t=1 and t=2, low at t=3 (`rise_time = 1`, falling edge 3,
duration `d = 2 ≥ 0`), the claim predicts output 1 at every sample whose
time lies in `[rise + hold, fall) = [1, 3)`, i.e. `0, 1, 1, 0` — but the
code outputs 0 at the rising sample (promotion happens no earlier than the
next held-high sample), producing `0, 0, 1, 0`. -/
theorem digital_hold_zero_counterexample :
    runDigital 0 (pulseInput [0] [1, 2] [3]) = [false, false, true, false] ∧
    runDigital 0 (pulseInput [0] [1, 2] [3]) ≠ [false, true, true, false] ∧
    (1 : ℚ) + 0 ≤ 1 ∧ (1 : ℚ) < 3 := by
  refine ⟨?_, ?_, by norm_num, by norm_num⟩ <;>
    norm_num [runDigital, runDigitalAux, pulseInput, apply_digital_filter, digInit]

/-- C2 witness: the ghost-press scenario S1 (`hold = 0.005`, samples
`(0.000, 0), (0.001, 1), (0.003, 0), (0.010, 0)`) instantiating the amended
theorem; every output is 0. -/
theorem digital_pulse_amended_witness :
    runDigital (1/200) (pulseInput [0] [1/1000] [3/1000, 1/100]) =
      [false, false, false, false] := by
  have h := digital_pulse_amended (1/200) 0 (1/1000) [] [] [3/1000, 1/100]
    (by norm_num) (by norm_num [List.pairwise_cons])
  simpa using h.1

/-! ## LSB-first bit-field extraction (HOTAS background loop, part_002 lines 650-662)

```
auto extract_bits = [&](const std::vector<uint8_t>& bytes, int bit_start, int bits)->uint64_t {
    if (bits <= 0) return 0;
    uint64_t val = 0;
    for (int i = 0; i < bits; ++i) {
        int bit_global = bit_start + i;
        size_t byte_idx = (size_t)bit_global / 8;
        int bit_in_byte = bit_global % 8; // LSB-first
        int bitv = 0;
        if (byte_idx < bytes.size()) bitv = (bytes[byte_idx] >> bit_in_byte) & 1;
        val |= (uint64_t)bitv << i;
    }
    return val;
};
```
Report bytes are modelled as a `List ℕ` (each entry a byte value); an
out-of-range byte index contributes bit value 0, exactly as in the code. -/

def bit_at (bytes : List ℕ) (g : ℕ) : ℕ :=
  (bytes.getD (g / 8) 0 >>> (g % 8)) &&& 1

def extract_bits (bytes : List ℕ) (bit_start bits : ℕ) : ℕ :=
  (List.range bits).foldl (fun val i => val ||| (bit_at bytes (bit_start + i) <<< i)) 0

theorem bit_at_le_one (bytes : List ℕ) (g : ℕ) : bit_at bytes g ≤ 1 :=
  Nat.and_le_right

theorem extract_bits_zero (bytes : List ℕ) (s : ℕ) : extract_bits bytes s 0 = 0 := rfl

theorem extract_bits_succ (bytes : List ℕ) (s c : ℕ) :
    extract_bits bytes s (c + 1) =
      extract_bits bytes s c ||| (bit_at bytes (s + c) <<< c) := by
  unfold extract_bits
  rw [List.range_succ, List.foldl_append]
  rfl

/-- Bit-level characterization: bit `j` of the extracted value is bit
`(bit_start + j) mod 8` of byte `(bit_start + j) / 8` when `j < bits`
(with missing bytes reading as 0), and 0 otherwise. -/
theorem extract_bits_testBit (bytes : List ℕ) (s : ℕ) :
    ∀ (c j : ℕ), (extract_bits bytes s c).testBit j =
      (decide (j < c) && decide (bit_at bytes (s + j) = 1)) := by
  intro c
  induction c with
  | zero => intro j; simp [extract_bits_zero]
  | succ c ih =>
    intro j
    rw [extract_bits_succ, Nat.testBit_or, ih j, Nat.testBit_shiftLeft]
    rcases lt_trichotomy j c with hj | hj | hj
    · have h1 : decide (j < c) = true := decide_eq_true hj
      have h2 : decide (j < c + 1) = true := decide_eq_true (Nat.lt_succ_of_lt hj)
      have h3 : decide (j ≥ c) = false := decide_eq_false (by omega)
      rw [h1, h2, h3]
      simp
    · subst hj
      have h1 : decide (j < j) = false := decide_eq_false (lt_irrefl j)
      have h2 : decide (j < j + 1) = true := decide_eq_true (Nat.lt_succ_self j)
      have h3 : decide (j ≥ j) = true := decide_eq_true (le_refl j)
      rw [h1, h2, h3, Nat.sub_self]
      rcases Nat.le_one_iff_eq_zero_or_eq_one.mp (bit_at_le_one bytes (s + j)) with hb | hb <;>
        simp [hb]
    · have h1 : decide (j < c) = false := decide_eq_false (by omega)
      have h2 : decide (j < c + 1) = false := decide_eq_false (by omega)
      rw [h1, h2]
      rcases Nat.le_one_iff_eq_zero_or_eq_one.mp (bit_at_le_one bytes (s + c)) with hb | hb
      · simp [hb]
      · have hsub : 1 ≤ j - c := by omega
        have : (1 : ℕ) < 2 ^ (j - c) := by
          calc (1 : ℕ) < 2 ^ 1 := by norm_num
          _ ≤ 2 ^ (j - c) := Nat.pow_le_pow_right (by norm_num) hsub
        rw [hb, Nat.testBit_lt_two_pow this]
        simp

theorem bit_at_take (bytes : List ℕ) (n g : ℕ) (h : g / 8 < n) :
    bit_at (bytes.take n) g = bit_at bytes g := by
  unfold bit_at
  rw [List.getD_eq_getElem?_getD, List.getD_eq_getElem?_getD, List.getElem?_take, if_pos h]

theorem extract_bits_take_of (bytes : List ℕ) (s c n : ℕ)
    (h : ∀ i, i < c → (s + i) / 8 < n) :
    extract_bits (bytes.take n) s c = extract_bits bytes s c := by
  induction c with
  | zero => rfl
  | succ c ih =>
    rw [extract_bits_succ, extract_bits_succ, ih (fun i hi => h i (by omega)),
      bit_at_take bytes n (s + c) (h c (by omega))]

/-- Locality: the extraction only looks at bytes with index at most
`ceil((bit_start + bits)/8) - 1`; truncating the report there does not
change the result. -/
theorem extract_bits_take (bytes : List ℕ) (s c : ℕ) :
    extract_bits (bytes.take ((s + c + 7) / 8)) s c = extract_bits bytes s c := by
  apply extract_bits_take_of
  intro i hi
  have h8 : (s + i) + 8 ≤ s + c + 7 := by omega
  have hdiv : ((s + i) + 8) / 8 ≤ (s + c + 7) / 8 := Nat.div_le_div_right h8
  rw [Nat.add_div_right _ (by norm_num : 0 < 8)] at hdiv
  omega

theorem extract_bits_all_out_of_range (bytes : List ℕ) (s c : ℕ)
    (h : 8 * bytes.length ≤ s) :
    extract_bits bytes s c = 0 := by
  induction c with
  | zero => rfl
  | succ c ih =>
    have hidx : bytes.length ≤ (s + c) / 8 := by
      rw [Nat.le_div_iff_mul_le (by norm_num : 0 < 8)]
      omega
    have hb : bit_at bytes (s + c) = 0 := by
      unfold bit_at
      rw [List.getD_eq_getElem?_getD, List.getElem?_eq_none (by omega)]
      simp
    rw [extract_bits_succ, ih, hb]
    simp

/-- C5 counterexample: for the one-byte report `[0xFF]` with
`bit_start = 4`, `bit_count = 8`, the field needs
`ceil((4+8)/8) = 2` bytes but the report has only 1; the claim says the
result is then 0, yet `extract_bits` returns 15 (the four available bits,
with the missing ones reading as 0). -/
theorem extract_bits_short_counterexample :
    extract_bits [255] 4 8 = 15 ∧ extract_bits [255] 4 8 ≠ 0 ∧
    ([255] : List ℕ).length < (4 + 8 + 7) / 8 := by
  refine ⟨by decide, by decide, by decide⟩

/-- C5 (amended): bit `j` of the result is bit `(bit_start + j) mod 8` of
byte `(bit_start + j) / 8` for `j < bit_count` and 0 otherwise; no byte at
an index greater than `ceil((bit_start + bit_count)/8) - 1` is read
(truncating the report there leaves the result unchanged); a bit whose byte
lies beyond the report reads as 0 — hence the result is 0 whenever the
whole field lies beyond the report (`8 * report_length ≤ bit_start`), but a
partially-covered field keeps the bits of the available bytes. -/
theorem extract_bits_amended (bytes : List ℕ) (s c : ℕ) :
    (∀ j, (extract_bits bytes s c).testBit j =
      (decide (j < c) && decide (bit_at bytes (s + j) = 1))) ∧
    extract_bits (bytes.take ((s + c + 7) / 8)) s c = extract_bits bytes s c ∧
    (8 * bytes.length ≤ s → extract_bits bytes s c = 0) :=
  ⟨extract_bits_testBit bytes s c, extract_bits_take bytes s c,
    extract_bits_all_out_of_range bytes s c⟩

/-- C5 witness: the amended theorem instantiated at the empty report with
`bit_start = 8`, where the whole field is out of range and the result is 0. -/
theorem extract_bits_amended_witness :
    8 * ([] : List ℕ).length ≤ 8 ∧ extract_bits [] 8 4 = 0 :=
  ⟨by decide, (extract_bits_amended [] 8 4).2.2 (by decide)⟩

/-! ## Report conversions (FilteredForwarder::process, part_000 lines 164-173;
HotasMapper::publisher_thread_main, part_001 lines 302-303, 345-350)

```
auto to_short = [](float v){ if (v>1) v=1; if (v<-1) v=-1; return (int16_t)(v>=0? v*32767.0f : v*32768.0f); };
auto to_trig  = [](float v){ if (v<0) v=0; if (v>1) v=1; return (uint8_t)(v*255.0f + 0.5f); };
...
rep.sThumbLY = to_short(-cur.ly);
rep.sThumbRY = to_short(-cur.ry);
```
The C cast to an integer type truncates toward zero. -/

def truncQ (q : ℚ) : ℤ := if 0 ≤ q then ⌊q⌋ else ⌈q⌉

def to_short (v : ℚ) : ℤ :=
  let v1 := if v > 1 then 1 else v
  let v2 := if v1 < -1 then -1 else v1
  truncQ (if 0 ≤ v2 then v2 * 32767 else v2 * 32768)

def to_trig (v : ℚ) : ℤ :=
  let v1 := if v < 0 then 0 else v
  let v2 := if v1 > 1 then 1 else v1
  truncQ (v2 * 255 + 1/2)

/-- Report field for the left thumb Y axis: the publisher sends the logical
value with inverted sign. -/
def sThumbLY_of_ly (ly : ℚ) : ℤ := to_short (-ly)

/-- Conversion as worded by the specification: clamp to `[-1, 1]`, then
`v ≥ 0 ? v*32767 : v*32768`. -/
def spec_to_short (v : ℚ) : ℤ :=
  let c := max (-1) (min 1 v)
  truncQ (if 0 ≤ c then c * 32767 else c * 32768)

/-- Conversion as worded by the specification: clamp to `[0, 1]`, then
`round(v*255)` (round half up). -/
def spec_to_trig (v : ℚ) : ℤ := ⌊max 0 (min 1 v) * 255 + 1/2⌋

theorem to_short_clamp_eq (v : ℚ) :
    (if (if v > 1 then 1 else v) < -1 then -1 else if v > 1 then 1 else v) =
      max (-1) (min 1 v) := by
  rcases lt_or_le 1 v with h1 | h1
  · rw [if_pos h1, if_neg (by norm_num), min_eq_left h1.le, max_eq_right (by norm_num)]
  · rw [if_neg (not_lt.mpr h1), min_eq_right h1]
    rcases lt_or_le v (-1) with h2 | h2
    · rw [if_pos h2, max_eq_left h2.le]
    · rw [if_neg (not_lt.mpr h2), max_eq_right h2]

theorem to_trig_clamp_eq (v : ℚ) :
    (if (if v < 0 then 0 else v) > 1 then 1 else if v < 0 then 0 else v) =
      max 0 (min 1 v) := by
  rcases lt_or_le v 0 with h1 | h1
  · rw [if_pos h1, if_neg (by norm_num), min_eq_right (by linarith), max_eq_left h1.le]
  · rw [if_neg (not_lt.mpr h1)]
    rcases lt_or_le 1 v with h2 | h2
    · rw [if_pos h2, min_eq_left h2.le, max_eq_right (by norm_num)]
    · rw [if_neg (not_lt.mpr h2), min_eq_right h2, max_eq_right h1]

theorem to_short_eq (v : ℚ) :
    to_short v = truncQ (if 0 ≤ max (-1) (min 1 v) then max (-1) (min 1 v) * 32767
      else max (-1) (min 1 v) * 32768) := by
  unfold to_short
  dsimp only
  rw [to_short_clamp_eq]

theorem to_trig_eq (v : ℚ) :
    to_trig v = truncQ (max 0 (min 1 v) * 255 + 1/2) := by
  unfold to_trig
  dsimp only
  rw [to_trig_clamp_eq]

/-- C6: axis values are clamped to `[-1, 1]` and converted with slope 32767
for non-negative and 32768 for negative values (result always in the i16
range); triggers are clamped to `[0, 1]` and converted as `round(v*255)`
(round half up, result in the u8 range); the LY report field carries the
sign-inverted logical value, and logical `ly = +1` produces
`sThumbLY = -32768`. -/
theorem publisher_conversion_spec (v : ℚ) :
    (-32768 ≤ to_short v ∧ to_short v ≤ 32767) ∧
    to_short v = spec_to_short v ∧
    (0 ≤ to_trig v ∧ to_trig v ≤ 255) ∧
    to_trig v = spec_to_trig v ∧
    sThumbLY_of_ly 1 = -32768 := by
  have hc_lb : (-1 : ℚ) ≤ max (-1) (min 1 v) := le_max_left _ _
  have hc_ub : max (-1) (min 1 v) ≤ 1 := max_le (by norm_num) (min_le_left _ _)
  have ht_lb : (0 : ℚ) ≤ max 0 (min 1 v) := le_max_left _ _
  have ht_ub : max 0 (min 1 v) ≤ 1 := max_le (by norm_num) (min_le_left _ _)
  refine ⟨?_, ?_, ?_, ?_, ?_⟩
  · -- i16 bounds
    rw [to_short_eq]
    set c := max (-1) (min 1 v) with hc
    unfold truncQ
    rcases le_or_lt 0 c with h0 | h0
    · rw [if_pos h0, if_pos (by positivity)]
      constructor
      · have : (0 : ℤ) ≤ ⌊c * 32767⌋ := Int.floor_nonneg.mpr (by positivity)
        omega
      · have hle : c * 32767 ≤ (32767 : ℚ) := by nlinarith
        calc ⌊c * 32767⌋ ≤ ⌊(32767 : ℚ)⌋ := Int.floor_le_floor hle
        _ = 32767 := by norm_num
    · rw [if_neg (not_le.mpr h0), if_neg (by nlinarith)]
      constructor
      · have hge : ((-32768 : ℤ) : ℚ) ≤ c * 32768 := by push_cast; nlinarith
        calc (-32768 : ℤ) = ⌈((-32768 : ℤ) : ℚ)⌉ := (Int.ceil_intCast _).symm
        _ ≤ ⌈c * 32768⌉ := Int.ceil_le_ceil hge
      · have hle : c * 32768 ≤ ((0 : ℤ) : ℚ) := by push_cast; nlinarith
        have : ⌈c * 32768⌉ ≤ 0 :=
          le_of_le_of_eq (Int.ceil_le_ceil hle) (Int.ceil_intCast 0)
        omega
  · -- refinement of the axis conversion against the specification wording
    rw [to_short_eq]
    rfl
  · -- u8 bounds
    rw [to_trig_eq]
    set c := max 0 (min 1 v) with hc
    unfold truncQ
    rw [if_pos (by positivity)]
    constructor
    · have : (0 : ℤ) ≤ ⌊c * 255 + 1/2⌋ := Int.floor_nonneg.mpr (by positivity)
      omega
    · have hle : c * 255 + 1/2 ≤ (255 : ℚ) + 1/2 := by nlinarith
      have h2 : ⌊(255 : ℚ) + 1/2⌋ = 255 :=
        Int.floor_eq_iff.mpr (by norm_num)
      calc ⌊c * 255 + 1/2⌋ ≤ ⌊(255 : ℚ) + 1/2⌋ := Int.floor_le_floor hle
      _ = 255 := h2
  · -- refinement of the trigger conversion against the specification wording
    rw [to_trig_eq]
    unfold truncQ spec_to_trig
    rw [if_pos (by positivity)]
  · -- logical ly = +1 gives report -32768
    unfold sThumbLY_of_ly to_short truncQ
    norm_num
    rw [show ((-32768 : ℚ)) = ((-32768 : ℤ) : ℚ) by norm_num, Int.ceil_intCast]

/-! ## Mapping resolver (HotasMapper::publisher_thread_main, part_001 lines 313-342)

```
auto resolve_axis = [&](const std::vector<MappingEntry>& vec)->double {
    if (vec.empty()) return 0.0;
    std::vector<MappingEntry> tmp = vec;
    std::sort(tmp.begin(), tmp.end(), [](const MappingEntry& a, const MappingEntry& b){ return a.priority > b.priority; });
    double fallback_max = 0.0; double fallback_val = 0.0;
    for (const auto &m : tmp) {
        double v = read_val(m.signal_id);
        double mag = std::fabs(v);
        if (mag > m.deadband) {
            return v; // first above deadband wins by priority
        }
        if (mag > fallback_max) { fallback_max = mag; fallback_val = v; }
    }
    return fallback_val; // none above deadband: use largest magnitude
};
auto resolve_button = [&](const std::vector<MappingEntry>& vec)->bool {
    ... sort ...
    for (const auto &m : tmp) { if (read_val(m.signal_id) > 0.5) return true; }
    return false;
};
```
The comparator consults only `priority`; `std::sort` is unstable and its
order on equal-priority entries is unspecified. The model uses a stable
insertion sort on the same comparator, which is one behavior permitted to
`std::sort`. `read_val` returns the latest sampled value of the signal, 0
when the signal has not been sampled yet; it is modelled as a total
function from signal ids to values. -/

structure MappingEntry where
  id : String
  signal_id : String
  action : String
  priority : ℤ
  deadband : ℚ
deriving DecidableEq

/-- Comparator order of the resolver sort: `a` comes no later than `b` when
`b.priority ≤ a.priority` (descending by priority, ids not consulted). -/
def priorityGE (a b : MappingEntry) : Prop := b.priority ≤ a.priority

instance : DecidableRel priorityGE := fun a b => Int.decLe b.priority a.priority

instance : IsTotal MappingEntry priorityGE :=
  ⟨fun a b => le_total b.priority a.priority⟩

instance : IsTrans MappingEntry priorityGE :=
  ⟨fun _ _ _ h1 h2 => le_trans h2 h1⟩

def sortByPriorityDesc (l : List MappingEntry) : List MappingEntry :=
  l.insertionSort priorityGE

def resolveWalk (vals : String → ℚ) : List MappingEntry → ℚ → ℚ → ℚ
  | [], _, fv => fv
  | m :: rest, fm, fv =>
    let v := vals m.signal_id
    if |v| > m.deadband then v
    else if |v| > fm then resolveWalk vals rest |v| v
    else resolveWalk vals rest fm fv

def resolve_axis (vals : String → ℚ) (vec : List MappingEntry) : ℚ :=
  if vec.isEmpty then 0
  else resolveWalk vals (sortByPriorityDesc vec) 0 0

def resolve_button (vals : String → ℚ) (vec : List MappingEntry) : Bool :=
  if vec.isEmpty then false
  else (sortByPriorityDesc vec).any (fun m => decide (vals m.signal_id > 1/2))

theorem sortByPriorityDesc_perm (l : List MappingEntry) :
    (sortByPriorityDesc l).Perm l :=
  List.perm_insertionSort priorityGE l

theorem sortByPriorityDesc_sorted (l : List MappingEntry) :
    (sortByPriorityDesc l).Pairwise priorityGE := by
  have := List.sorted_insertionSort priorityGE l
  exact this

theorem resolveWalk_above (vals : String → ℚ) :
    ∀ (S : List MappingEntry) (fm fv : ℚ),
      S.Pairwise priorityGE →
      (∃ m ∈ S, m.deadband < |vals m.signal_id|) →
      ∃ m ∈ S, m.deadband < |vals m.signal_id| ∧
        (∀ m2 ∈ S, m2.deadband < |vals m2.signal_id| → m2.priority ≤ m.priority) ∧
        resolveWalk vals S fm fv = vals m.signal_id := by
  intro S
  induction S with
  | nil => intro fm fv _ hex; simp at hex
  | cons m rest ih =>
    intro fm fv hpw hex
    have hpw2 := List.pairwise_cons.mp hpw
    by_cases habove : m.deadband < |vals m.signal_id|
    · refine ⟨m, List.mem_cons_self m rest, habove, ?_, ?_⟩
      · intro m2 hm2 _
        rcases List.mem_cons.mp hm2 with rfl | hm2
        · exact le_refl _
        · exact hpw2.1 m2 hm2
      · unfold resolveWalk
        rw [if_pos habove]
    · have hexr : ∃ m2 ∈ rest, m2.deadband < |vals m2.signal_id| := by
        rcases hex with ⟨m2, hm2, h2⟩
        rcases List.mem_cons.mp hm2 with rfl | hm2
        · exact absurd h2 habove
        · exact ⟨m2, hm2, h2⟩
      have hlift : ∀ (r : ℚ),
          (∃ m2 ∈ rest, m2.deadband < |vals m2.signal_id| ∧
            (∀ m3 ∈ rest, m3.deadband < |vals m3.signal_id| → m3.priority ≤ m2.priority) ∧
            r = vals m2.signal_id) →
          ∃ m2 ∈ m :: rest, m2.deadband < |vals m2.signal_id| ∧
            (∀ m3 ∈ m :: rest, m3.deadband < |vals m3.signal_id| → m3.priority ≤ m2.priority) ∧
            r = vals m2.signal_id := by
        rintro r ⟨m2, hm2, h2, hmax, hr⟩
        refine ⟨m2, List.mem_cons_of_mem m hm2, h2, ?_, hr⟩
        intro m3 hm3 h3
        rcases List.mem_cons.mp hm3 with rfl | hm3
        · exact absurd h3 habove
        · exact hmax m3 hm3 h3
      unfold resolveWalk
      rw [if_neg habove]
      split
      · exact hlift _ (ih |vals m.signal_id| (vals m.signal_id) hpw2.2 hexr)
      · exact hlift _ (ih fm fv hpw2.2 hexr)

theorem resolveWalk_fallback (vals : String → ℚ) :
    ∀ (S : List MappingEntry) (fm fv : ℚ),
      (∀ m ∈ S, ¬ m.deadband < |vals m.signal_id|) →
      fm = |fv| →
      (∀ m ∈ S, |vals m.signal_id| ≤ |resolveWalk vals S fm fv|) ∧
      |fv| ≤ |resolveWalk vals S fm fv| ∧
      (resolveWalk vals S fm fv = fv ∨
        ∃ m ∈ S, vals m.signal_id = resolveWalk vals S fm fv) := by
  intro S
  induction S with
  | nil =>
    intro fm fv _ _
    exact ⟨by simp, le_refl _, Or.inl rfl⟩
  | cons m rest ih =>
    intro fm fv hno hfm
    have hnom : ¬ m.deadband < |vals m.signal_id| := hno m (List.mem_cons_self m rest)
    have hnor : ∀ m2 ∈ rest, ¬ m2.deadband < |vals m2.signal_id| :=
      fun m2 h2 => hno m2 (List.mem_cons_of_mem m h2)
    unfold resolveWalk
    rw [if_neg hnom]
    split
    · rename_i hgt
      obtain ⟨ha, hb, hc⟩ := ih |vals m.signal_id| (vals m.signal_id) hnor rfl
      refine ⟨?_, ?_, ?_⟩
      · intro m2 hm2
        rcases List.mem_cons.mp hm2 with rfl | hm2
        · exact hb
        · exact ha m2 hm2
      · calc |fv| = fm := hfm.symm
        _ ≤ |vals m.signal_id| := le_of_lt hgt
        _ ≤ _ := hb
      · rcases hc with hc | ⟨m2, hm2, hv2⟩
        · exact Or.inr ⟨m, List.mem_cons_self m rest, hc.symm⟩
        · exact Or.inr ⟨m2, List.mem_cons_of_mem m hm2, hv2⟩
    · rename_i hle
      push_neg at hle
      obtain ⟨ha, hb, hc⟩ := ih fm fv hnor hfm
      refine ⟨?_, hb, ?_⟩
      · intro m2 hm2
        rcases List.mem_cons.mp hm2 with rfl | hm2
        · calc |vals m2.signal_id| ≤ fm := hle
          _ = |fv| := hfm
          _ ≤ _ := hb
        · exact ha m2 hm2
      · rcases hc with hc | ⟨m2, hm2, hv2⟩
        · exact Or.inl hc
        · exact Or.inr ⟨m2, List.mem_cons_of_mem m hm2, hv2⟩

theorem resolveWalk_zero (vals : String → ℚ) :
    ∀ (S : List MappingEntry) (fm fv : ℚ),
      (∀ m ∈ S, vals m.signal_id = 0) → fv = 0 →
      resolveWalk vals S fm fv = 0 := by
  intro S
  induction S with
  | nil => intro fm fv _ h0; exact h0
  | cons m rest ih =>
    intro fm fv hz h0
    have hzm : vals m.signal_id = 0 := hz m (List.mem_cons_self m rest)
    have hzr : ∀ m2 ∈ rest, vals m2.signal_id = 0 :=
      fun m2 h2 => hz m2 (List.mem_cons_of_mem m h2)
    unfold resolveWalk
    dsimp only
    split
    · exact hzm
    · split
      · exact ih _ _ hzr hzm
      · exact ih _ _ hzr h0

/-- Scenario S4 mappings: two mappings on the left-X axis group. -/
def mapJoyX : MappingEntry :=
  { id := "m1", signal_id := "stick:joy_x", action := "x360:left_x",
    priority := 10, deadband := 1/20 }

def mapThumbX : MappingEntry :=
  { id := "m2", signal_id := "throttle:thumb_joy_x", action := "x360:left_x",
    priority := 5, deadband := 1/20 }

/-- Scenario S4, first assignment of current signal values. -/
def valsS4a : String → ℚ := fun s =>
  if s = "stick:joy_x" then 3/100 else if s = "throttle:thumb_joy_x" then 2/5 else 0

/-- Scenario S4, second assignment of current signal values. -/
def valsS4b : String → ℚ := fun s =>
  if s = "stick:joy_x" then 1/10 else if s = "throttle:thumb_joy_x" then 2/5 else 0

/-- C3: if some mapping of the group has `|v| > deadband`, the resolver
returns the value of an above-deadband mapping whose priority is maximal
among the above-deadband mappings (the unique such mapping when priorities
are distinct); otherwise it returns a value of maximal magnitude in the
group (sign preserved, as the value of one of the mappings), and 0 when
every value is 0. In scenario S4 the values `0.03, 0.40` resolve to `0.40`
and the values `0.10, 0.40` resolve to `0.10`. -/
theorem resolve_axis_spec (vals : String → ℚ) (vec : List MappingEntry) :
    ((∃ m ∈ vec, m.deadband < |vals m.signal_id|) →
      ∃ m ∈ vec, m.deadband < |vals m.signal_id| ∧
        (∀ m2 ∈ vec, m2.deadband < |vals m2.signal_id| → m2.priority ≤ m.priority) ∧
        resolve_axis vals vec = vals m.signal_id) ∧
    ((∀ m ∈ vec, ¬ m.deadband < |vals m.signal_id|) →
      (∀ m ∈ vec, |vals m.signal_id| ≤ |resolve_axis vals vec|) ∧
      (resolve_axis vals vec = 0 ∨ ∃ m ∈ vec, vals m.signal_id = resolve_axis vals vec)) ∧
    ((∀ m ∈ vec, vals m.signal_id = 0) → resolve_axis vals vec = 0) ∧
    resolve_axis valsS4a [mapJoyX, mapThumbX] = 2/5 ∧
    resolve_axis valsS4b [mapJoyX, mapThumbX] = 1/10 := by
  have hperm := sortByPriorityDesc_perm vec
  have hsorted := sortByPriorityDesc_sorted vec
  refine ⟨?_, ?_, ?_, ?_, ?_⟩
  · intro hex
    cases hvec : vec.isEmpty with
    | true =>
      rcases hex with ⟨m, hm, _⟩
      rw [List.isEmpty_iff] at hvec
      subst hvec
      simp at hm
    | false =>
      have hexS : ∃ m ∈ sortByPriorityDesc vec, m.deadband < |vals m.signal_id| := by
        rcases hex with ⟨m, hm, h2⟩
        exact ⟨m, hperm.mem_iff.mpr hm, h2⟩
      obtain ⟨m, hm, h2, hmax, heq⟩ := resolveWalk_above vals _ 0 0 hsorted hexS
      refine ⟨m, hperm.mem_iff.mp hm, h2, ?_, ?_⟩
      · intro m2 hm2 hab2
        exact hmax m2 (hperm.mem_iff.mpr hm2) hab2
      · rw [resolve_axis, if_neg (by simp [hvec])]
        exact heq
  · intro hno
    cases hvec : vec.isEmpty with
    | true =>
      rw [List.isEmpty_iff] at hvec
      subst hvec
      exact ⟨by simp, Or.inl rfl⟩
    | false =>
      have hnoS : ∀ m ∈ sortByPriorityDesc vec, ¬ m.deadband < |vals m.signal_id| :=
        fun m hm => hno m (hperm.mem_iff.mp hm)
      obtain ⟨ha, _, hc⟩ := resolveWalk_fallback vals (sortByPriorityDesc vec) 0 0 hnoS (by simp)
      have hres : resolve_axis vals vec = resolveWalk vals (sortByPriorityDesc vec) 0 0 := by
        rw [resolve_axis, if_neg (by simp [hvec])]
      refine ⟨?_, ?_⟩
      · intro m hm
        rw [hres]
        exact ha m (hperm.mem_iff.mpr hm)
      · rw [hres]
        rcases hc with hc | ⟨m, hm, hv⟩
        · exact Or.inl hc
        · exact Or.inr ⟨m, hperm.mem_iff.mp hm, hv⟩
  · intro hz
    cases hvec : vec.isEmpty with
    | true => rw [resolve_axis, if_pos hvec]
    | false =>
      rw [resolve_axis, if_neg (by simp [hvec])]
      exact resolveWalk_zero vals _ 0 0 (fun m hm => hz m (hperm.mem_iff.mp hm)) rfl
  · norm_num [resolve_axis, resolveWalk, sortByPriorityDesc, List.insertionSort,
      List.orderedInsert, priorityGE, mapJoyX, mapThumbX, valsS4a,
      show ("throttle:thumb_joy_x" : String) ≠ "stick:joy_x" by decide, abs]
  · norm_num [resolve_axis, resolveWalk, sortByPriorityDesc, List.insertionSort,
      List.orderedInsert, priorityGE, mapJoyX, mapThumbX, valsS4b,
      show ("throttle:thumb_joy_x" : String) ≠ "stick:joy_x" by decide, abs]

/-- C3 witness: the all-zero clause of the theorem instantiated at the S4
mapping group with no signal sampled yet. -/
theorem resolve_axis_spec_witness :
    resolve_axis (fun _ => 0) [mapJoyX, mapThumbX] = 0 :=
  (resolve_axis_spec (fun _ => 0) [mapJoyX, mapThumbX]).2.2.1 (fun _ _ => rfl)

/-- Strict descending priority order, used to identify the sorted list
uniquely when priorities are pairwise distinct. -/
def priorityGT (a b : MappingEntry) : Prop := b.priority < a.priority

instance : IsAntisymm MappingEntry priorityGT :=
  ⟨fun _ _ h1 h2 => absurd h1 (lt_asymm h2)⟩

/-- Equal-priority mappings inserted in the other order: the comparator
sees no difference between them. -/
def mapTieA : MappingEntry :=
  { id := "a", signal_id := "s1", action := "x360:left_x",
    priority := 5, deadband := 1/20 }

def mapTieB : MappingEntry :=
  { id := "b", signal_id := "s2", action := "x360:left_x",
    priority := 5, deadband := 1/20 }

def valsTie : String → ℚ := fun s =>
  if s = "s1" then 3/10 else if s = "s2" then 7/10 else 0

/-- C8 counterexample: the resolver sort compares only priorities, so a
group of two equal-priority mappings is not enumerated in lexicographic id
order (inserting `b` before `a` keeps `b` first), and when both values
exceed their deadbands the resolved output depends on the insertion order:
`0.30` for `[a, b]`, `0.70` for `[b, a]`. -/
theorem mapping_sort_counterexample :
    (sortByPriorityDesc [mapTieB, mapTieA]).map (fun m => m.id) = ["b", "a"] ∧
    (sortByPriorityDesc [mapTieB, mapTieA]).map (fun m => m.id) ≠ ["a", "b"] ∧
    resolve_axis valsTie [mapTieA, mapTieB] = 3/10 ∧
    resolve_axis valsTie [mapTieB, mapTieA] = 7/10 ∧
    resolve_axis valsTie [mapTieA, mapTieB] ≠ resolve_axis valsTie [mapTieB, mapTieA] := by
  have hsort : sortByPriorityDesc [mapTieB, mapTieA] = [mapTieB, mapTieA] := by
    norm_num [sortByPriorityDesc, List.insertionSort, List.orderedInsert,
      priorityGE, mapTieA, mapTieB]
  have hab : resolve_axis valsTie [mapTieA, mapTieB] = 3/10 := by
    norm_num [resolve_axis, resolveWalk, sortByPriorityDesc, List.insertionSort,
      List.orderedInsert, priorityGE, mapTieA, mapTieB, valsTie,
      show ("s2" : String) ≠ "s1" by decide, abs]
  have hba : resolve_axis valsTie [mapTieB, mapTieA] = 7/10 := by
    norm_num [resolve_axis, resolveWalk, sortByPriorityDesc, List.insertionSort,
      List.orderedInsert, priorityGE, mapTieA, mapTieB, valsTie,
      show ("s2" : String) ≠ "s1" by decide, abs]
  refine ⟨by rw [hsort]; rfl, by rw [hsort]; decide, hab, hba, ?_⟩
  rw [hab, hba]
  norm_num

/-- C8 (amended): the resolver enumerates each group as a permutation of it
sorted by priority descending; the comparator does not consult ids, so
equal-priority mappings keep an unspecified (insertion-dependent) relative
order and the resolved axis output can depend on the insertion order. When
the priorities in the group are pairwise distinct the enumeration — and
hence the resolved axis value — is a function of the set alone, and the
button resolution (an OR over the group) is always insertion-order
independent. -/
theorem mapping_sort_amended (vals : String → ℚ) (l l2 : List MappingEntry) :
    (sortByPriorityDesc l).Perm l ∧
    (sortByPriorityDesc l).Pairwise priorityGE ∧
    (l.Perm l2 → l.Pairwise (fun a b => a.priority ≠ b.priority) →
      sortByPriorityDesc l = sortByPriorityDesc l2 ∧
      resolve_axis vals l = resolve_axis vals l2) ∧
    (l.Perm l2 → resolve_button vals l = resolve_button vals l2) := by
  have hp1 := sortByPriorityDesc_perm l
  have hp2 := sortByPriorityDesc_perm l2
  have hs1 := sortByPriorityDesc_sorted l
  have hs2 := sortByPriorityDesc_sorted l2
  have hsymm : ∀ {x y : MappingEntry}, x.priority ≠ y.priority → y.priority ≠ x.priority :=
    fun h => h.symm
  refine ⟨hp1, hs1, ?_, ?_⟩
  · intro hll2 hdist
    have hsortperm : (sortByPriorityDesc l).Perm (sortByPriorityDesc l2) :=
      (hp1.trans hll2).trans hp2.symm
    have hd1 : (sortByPriorityDesc l).Pairwise (fun a b => a.priority ≠ b.priority) :=
      (List.Perm.pairwise_iff hsymm hp1).mpr hdist
    have hd2 : (sortByPriorityDesc l2).Pairwise (fun a b => a.priority ≠ b.priority) :=
      (List.Perm.pairwise_iff hsymm (hp2.trans hll2.symm)).mpr hdist
    have hstrict : ∀ (s : List MappingEntry), s.Pairwise priorityGE →
        s.Pairwise (fun a b => a.priority ≠ b.priority) → List.Sorted priorityGT s := by
      intro s hge hne
      have := hge.and hne
      exact this.imp (fun h => lt_of_le_of_ne h.1 (hsymm h.2))
    have heq : sortByPriorityDesc l = sortByPriorityDesc l2 :=
      List.eq_of_perm_of_sorted hsortperm (hstrict _ hs1 hd1) (hstrict _ hs2 hd2)
    refine ⟨heq, ?_⟩
    have hempty : l.isEmpty = l2.isEmpty := by
      cases l with
      | nil =>
        cases l2 with
        | nil => rfl
        | cons b bs => exact absurd hll2.symm.eq_nil (by simp)
      | cons a as =>
        cases l2 with
        | nil => exact absurd hll2.eq_nil (by simp)
        | cons b bs => rfl
    unfold resolve_axis
    rw [heq, hempty]
  · intro hll2
    have hsortperm : (sortByPriorityDesc l).Perm (sortByPriorityDesc l2) :=
      (hp1.trans hll2).trans hp2.symm
    unfold resolve_button
    have hany : ((sortByPriorityDesc l).any (fun m => decide (vals m.signal_id > 1/2))) =
        ((sortByPriorityDesc l2).any (fun m => decide (vals m.signal_id > 1/2))) := by
      cases ha : (sortByPriorityDesc l).any (fun m => decide (vals m.signal_id > 1/2)) with
      | true =>
        rw [List.any_eq_true] at ha
        rcases ha with ⟨m, hm, hv⟩
        exact (List.any_eq_true.mpr ⟨m, hsortperm.mem_iff.mp hm, hv⟩).symm
      | false =>
        cases hb : (sortByPriorityDesc l2).any (fun m => decide (vals m.signal_id > 1/2)) with
        | true =>
          rw [List.any_eq_true] at hb
          rcases hb with ⟨m, hm, hv⟩
          rw [List.any_eq_true.mpr ⟨m, hsortperm.mem_iff.mpr hm, hv⟩] at ha
          simp at ha
        | false => rfl
    have hempty : l.isEmpty = l2.isEmpty := by
      cases l with
      | nil =>
        cases l2 with
        | nil => rfl
        | cons b bs => exact absurd hll2.symm.eq_nil (by simp)
      | cons a as =>
        cases l2 with
        | nil => exact absurd hll2.eq_nil (by simp)
        | cons b bs => rfl
    rw [hempty, hany]

/-- C8 witness: with distinct priorities (the S4 group), reversing the
insertion order changes neither the sorted enumeration nor the resolved
value. -/
theorem mapping_sort_amended_witness :
    sortByPriorityDesc [mapJoyX, mapThumbX] = sortByPriorityDesc [mapThumbX, mapJoyX] ∧
    resolve_axis valsS4a [mapJoyX, mapThumbX] = resolve_axis valsS4a [mapThumbX, mapJoyX] :=
  (mapping_sort_amended valsS4a [mapJoyX, mapThumbX] [mapThumbX, mapJoyX]).2.2.1
    (List.Perm.swap mapThumbX mapJoyX [])
    (by norm_num [List.pairwise_cons, mapJoyX, mapThumbX])

/-! ## Keyboard auto-repeat (HotasMapper::publisher_thread_main, part_001 lines 418-449)

```
if (want && !st.pressed) {
    send_key(vk, true);
    st.pressed = true;
    st.press_time = now;
    st.next_repeat = now + std::chrono::milliseconds(g_kbd_params.delay_ms);
} else if (want && st.pressed) {
    if (now >= st.next_repeat) {
        send_key(vk, true); // generate auto-repeat keydown
        st.next_repeat = now + std::chrono::milliseconds(g_kbd_params.interval_ms);
    }
} else if (!want && st.pressed) {
    send_key(vk, false);
    st.pressed = false;
}
```
One virtual key is modelled; `want` is its desired-down state at the tick.
Times are in integer milliseconds; the publisher ticks once per
millisecond (1 kHz), so the tick at time `t` processes `want t`. The
host-derived parameters satisfy `delay_ms ≥ 250` and `interval_ms ≥ 10`
(`init_kbd_params_once`). -/

structure KeyState where
  pressed : Bool
  nextRepeat : ℕ
deriving DecidableEq

inductive KeyEv where
  | down
  | up
deriving DecidableEq

def kbd_tick (delay interval : ℕ) (now : ℕ) (want : Bool) (st : KeyState) :
    List (ℕ × KeyEv) × KeyState :=
  if want ∧ ¬st.pressed then
    ([(now, KeyEv.down)], { pressed := true, nextRepeat := now + delay })
  else if want ∧ st.pressed then
    if st.nextRepeat ≤ now then
      ([(now, KeyEv.down)], { pressed := true, nextRepeat := now + interval })
    else ([], st)
  else if ¬want ∧ st.pressed then
    ([(now, KeyEv.up)], { st with pressed := false })
  else ([], st)

def kbd_run (delay interval : ℕ) (want : ℕ → Bool) (st : KeyState) :
    List ℕ → List (ℕ × KeyEv)
  | [] => []
  | t :: ts =>
    (kbd_tick delay interval t (want t) st).1 ++
      kbd_run delay interval want (kbd_tick delay interval t (want t) st).2 ts

theorem kbd_run_cons (delay interval : ℕ) (want : ℕ → Bool) (st : KeyState)
    (t : ℕ) (ts : List ℕ) :
    kbd_run delay interval want st (t :: ts) =
      (kbd_tick delay interval t (want t) st).1 ++
        kbd_run delay interval want (kbd_tick delay interval t (want t) st).2 ts := rfl

/-- Repeat phase: while the key is held (`want` true strictly before `t1`,
false at `t1`) with the key pressed and next repeat scheduled at `n ≥ t`,
auto-repeat key-downs fire exactly at `n, n + interval, n + 2*interval, …`
and a single key-up fires at `t1`. -/
theorem kbd_repeat_phase (delay interval t1 : ℕ) (hi : 1 ≤ interval) :
    ∀ (k t n : ℕ), t + k = t1 → t ≤ n →
      kbd_run delay interval (fun u => decide (u < t1)) ⟨true, n⟩
          (List.range' t (k + 1)) =
        ((List.range' t k).filter
            (fun u => decide (n ≤ u ∧ (u - n) % interval = 0))).map
          (fun u => (u, KeyEv.down)) ++ [(t1, KeyEv.up)] := by
  intro k
  induction k with
  | zero =>
    intro t n ht hn
    subst ht
    simp only [Nat.add_zero] at *
    rw [List.range'_one]
    rw [kbd_run_cons]
    have hw : decide (t < t) = false := by simp
    rw [hw]
    simp [kbd_tick, kbd_run]
  | succ k ih =>
    intro t n ht hn
    have hlt : t < t1 := by omega
    have hw : decide (t < t1) = true := decide_eq_true hlt
    rw [List.range'_succ, kbd_run_cons, hw]
    rcases eq_or_lt_of_le hn with rfl | htn
    · -- now = nextRepeat: auto-repeat fires, next scheduled at t + interval
      have htick : kbd_tick delay interval t true ⟨true, t⟩ =
          ([(t, KeyEv.down)], ⟨true, t + interval⟩) := by
        simp [kbd_tick]
      rw [htick]
      have hrec := ih (t + 1) (t + interval) (by omega) (by omega)
      rw [hrec]
      have hfilter : (List.range' t (k + 1)).filter
            (fun u => decide (t ≤ u ∧ (u - t) % interval = 0)) =
          t :: (List.range' (t + 1) k).filter
            (fun u => decide (t + interval ≤ u ∧ (u - (t + interval)) % interval = 0)) := by
        rw [List.range'_succ, List.filter_cons]
        rw [if_pos (by simp)]
        congr 1
        apply List.filter_congr
        intro u hu
        have hu1 : t + 1 ≤ u := (List.mem_range'_1.mp hu).1
        rcases Nat.lt_or_ge u (t + interval) with hcase | hcase
        · have hl : decide (t ≤ u ∧ (u - t) % interval = 0) = false := by
            rw [decide_eq_false_iff_not]
            rintro ⟨_, hmod⟩
            have h1 : u - t < interval := by omega
            have h2 : 0 < u - t := by omega
            rw [Nat.mod_eq_of_lt h1] at hmod
            omega
          have hr : decide (t + interval ≤ u ∧ (u - (t + interval)) % interval = 0) = false := by
            rw [decide_eq_false_iff_not]
            rintro ⟨hge, _⟩
            omega
          rw [hl, hr]
        · have hmodeq : (u - t) % interval = (u - (t + interval)) % interval := by
            have : u - t = (u - (t + interval)) + interval := by omega
            rw [this, Nat.add_mod_right]
          have : (t ≤ u ∧ (u - t) % interval = 0) ↔
              (t + interval ≤ u ∧ (u - (t + interval)) % interval = 0) := by
            rw [hmodeq]
            constructor
            · rintro ⟨_, h⟩; exact ⟨hcase, h⟩
            · rintro ⟨_, h⟩; exact ⟨by omega, h⟩
          rw [decide_eq_decide.mpr this]
      rw [hfilter]
      simp
    · -- now < nextRepeat: no event this tick
      have htick : kbd_tick delay interval t true ⟨true, n⟩ = ([], ⟨true, n⟩) := by
        simp only [kbd_tick]
        rw [if_neg (by simp), if_pos (by simp)]
        rw [if_neg (by omega)]
      rw [htick]
      have hrec := ih (t + 1) n (by omega) (by omega)
      rw [hrec]
      have hfilter : (List.range' t (k + 1)).filter
            (fun u => decide (n ≤ u ∧ (u - n) % interval = 0)) =
          (List.range' (t + 1) k).filter
            (fun u => decide (n ≤ u ∧ (u - n) % interval = 0)) := by
        rw [List.range'_succ, List.filter_cons]
        rw [if_neg (by simp; omega)]
      rw [hfilter]
      simp

/-- C4: for a key whose desired-down state is constantly true from tick
`t0` up to (excluding) tick `t1` and false at `t1`, the publisher emits
key-downs exactly at `t0`, `t0 + initial_delay_ms` and every `interval_ms`
thereafter (while still desired down), and exactly one key-up, at `t1`,
where the desired-down state transitions from true to false. -/
theorem key_repeat_spec (delay interval t0 t1 : ℕ)
    (hd : 1 ≤ delay) (hi : 1 ≤ interval) (ht : t0 < t1) :
    kbd_run delay interval (fun u => decide (u < t1)) ⟨false, 0⟩
        (List.range' t0 (t1 - t0 + 1)) =
      ((List.range' t0 (t1 - t0)).filter
          (fun u => decide (u = t0 ∨
            (t0 + delay ≤ u ∧ (u - (t0 + delay)) % interval = 0)))).map
        (fun u => (u, KeyEv.down)) ++ [(t1, KeyEv.up)] := by
  obtain ⟨k, hk⟩ : ∃ k, t1 - t0 = k + 1 := ⟨t1 - t0 - 1, by omega⟩
  rw [hk]
  rw [show List.range' t0 (k + 1 + 1) = t0 :: List.range' (t0 + 1) (k + 1) from
    List.range'_succ t0 (k + 1) 1]
  rw [kbd_run_cons]
  have hw : decide (t0 < t1) = true := decide_eq_true ht
  rw [hw]
  have htick : kbd_tick delay interval t0 true ⟨false, 0⟩ =
      ([(t0, KeyEv.down)], ⟨true, t0 + delay⟩) := by
    simp [kbd_tick]
  rw [htick]
  have hrec := kbd_repeat_phase delay interval t1 hi k (t0 + 1) (t0 + delay)
    (by omega) (by omega)
  rw [hrec]
  rw [show List.range' t0 (k + 1) = t0 :: List.range' (t0 + 1) k from
    List.range'_succ t0 k 1]
  have hfilter : (t0 :: List.range' (t0 + 1) k).filter
        (fun u => decide (u = t0 ∨
          (t0 + delay ≤ u ∧ (u - (t0 + delay)) % interval = 0))) =
      t0 :: (List.range' (t0 + 1) k).filter
        (fun u => decide (t0 + delay ≤ u ∧ (u - (t0 + delay)) % interval = 0)) := by
    rw [List.filter_cons, if_pos (by simp)]
    congr 1
    apply List.filter_congr
    intro u hu
    have hu1 : t0 + 1 ≤ u := (List.mem_range'_1.mp hu).1
    apply decide_eq_decide.mpr
    constructor
    · rintro (rfl | h)
      · omega
      · exact h
    · intro h; exact Or.inr h
  rw [hfilter]
  simp

/-- C4 witness: scenario S6 — `initial_delay_ms = 250`, `interval_ms = 33`,
desired-down from t=1.000 s until t=1.400 s (milliseconds 1000 .. 1399),
producing key-downs at 1.000, 1.250, 1.283, 1.316, 1.349, 1.382 and the
key-up at 1.400. -/
theorem key_repeat_spec_witness :
    kbd_run 250 33 (fun u => decide (u < 1400)) ⟨false, 0⟩
        (List.range' 1000 401) =
      [(1000, KeyEv.down), (1250, KeyEv.down), (1283, KeyEv.down),
        (1316, KeyEv.down), (1349, KeyEv.down), (1382, KeyEv.down),
        (1400, KeyEv.up)] := by
  have h := key_repeat_spec 250 33 1000 1400 (by norm_num) (by norm_num) (by norm_num)
  rw [show (1400 - 1000 + 1 : ℕ) = 401 by norm_num] at h
  rw [h]
  decide

/-! ## SampleRing (src/src/core/ring_buffer.hpp)

```
void push(double t, float v) {
    const uint64_t idx = _write_index.fetch_add(1, std::memory_order_relaxed);
    _data[idx & _mask] = Sample{t, v};
}
void snapshot(double latest_time, double window_seconds, std::vector<Sample>& out) const {
    out.clear();
    uint64_t end = _write_index.load(std::memory_order_acquire);
    if (end == 0) return;
    const uint64_t start = (end > _capacity) ? end - _capacity : 0;
    const double cutoff = latest_time - window_seconds;
    for (uint64_t i = start; i < end; ++i) {
        const Sample &s = _data[i & _mask];
        if (s.t >= cutoff) out.push_back(s);
    }
}
```
`_mask = capacity - 1` with a power-of-two capacity; the sequential
(single-writer, quiescent-reader) behavior is modelled. -/

structure Sample where
  t : ℚ
  v : ℚ
deriving DecidableEq

structure SampleRing where
  capacity : ℕ
  data : List Sample
  write_index : ℕ
deriving DecidableEq

def SampleRing.init (C : ℕ) : SampleRing :=
  { capacity := C, data := List.replicate C ⟨0, 0⟩, write_index := 0 }

def SampleRing.push (r : SampleRing) (t v : ℚ) : SampleRing :=
  { r with
    data := r.data.set (r.write_index &&& (r.capacity - 1)) ⟨t, v⟩,
    write_index := r.write_index + 1 }

def SampleRing.snapshot (r : SampleRing) (latest_time window_seconds : ℚ) :
    List Sample :=
  if r.write_index = 0 then []
  else
    let start := if r.write_index > r.capacity then r.write_index - r.capacity else 0
    let cutoff := latest_time - window_seconds
    ((List.range' start (r.write_index - start)).map
        (fun i => r.data.getD (i &&& (r.capacity - 1)) ⟨0, 0⟩)).filter
      (fun s => decide (cutoff ≤ s.t))

/-- The ring after the write history `h` (each sample pushed in order). -/
def pushAll (r : SampleRing) (h : List Sample) : SampleRing :=
  h.foldl (fun r s => r.push s.t s.v) r

theorem pushAll_append_single (r : SampleRing) (h : List Sample) (s : Sample) :
    pushAll r (h ++ [s]) = (pushAll r h).push s.t s.v := by
  unfold pushAll
  rw [List.foldl_append]
  rfl

theorem pushAll_capacity (r : SampleRing) (h : List Sample) :
    (pushAll r h).capacity = r.capacity := by
  induction h using List.reverseRecOn with
  | nil => rfl
  | append_singleton h s ih => rw [pushAll_append_single]; exact ih

theorem pushAll_write_index (r : SampleRing) (h : List Sample) :
    (pushAll r h).write_index = r.write_index + h.length := by
  induction h using List.reverseRecOn with
  | nil => rfl
  | append_singleton h s ih =>
    rw [pushAll_append_single]
    show (pushAll r h).write_index + 1 = _
    rw [ih]
    simp
    omega

theorem pushAll_data_length (r : SampleRing) (h : List Sample) :
    (pushAll r h).data.length = r.data.length := by
  induction h using List.reverseRecOn with
  | nil => rfl
  | append_singleton h s ih =>
    rw [pushAll_append_single]
    show ((pushAll r h).data.set _ _).length = _
    rw [List.length_set]
    exact ih

/-- Slot contents after a write history: slot `i mod C` holds history entry
`i` for every index `i` among the last `C` writes. -/
theorem pushAll_slot (c : ℕ) (h : List Sample) :
    ∀ i, i < h.length → h.length ≤ i + 2^c →
      (pushAll (SampleRing.init (2^c)) h).data.getD (i % 2^c) ⟨0, 0⟩ =
        h.getD i ⟨0, 0⟩ := by
  induction h using List.reverseRecOn with
  | nil => intro i hi; simp at hi
  | append_singleton h s ih =>
    intro i hi hC
    have hcap : (pushAll (SampleRing.init (2^c)) h).capacity = 2^c :=
      pushAll_capacity _ h
    have hwidx : (pushAll (SampleRing.init (2^c)) h).write_index = h.length := by
      simp [pushAll_write_index, SampleRing.init]
    have hdlen : (pushAll (SampleRing.init (2^c)) h).data.length = 2^c := by
      rw [pushAll_data_length]
      simp [SampleRing.init]
    rw [pushAll_append_single]
    show ((pushAll (SampleRing.init (2^c)) h).data.set
        ((pushAll (SampleRing.init (2^c)) h).write_index &&&
          ((pushAll (SampleRing.init (2^c)) h).capacity - 1)) ⟨s.t, s.v⟩).getD
        (i % 2^c) ⟨0, 0⟩ = (h ++ [s]).getD i ⟨0, 0⟩
    rw [hcap, hwidx, Nat.and_pow_two_sub_one_eq_mod]
    rw [List.length_append, List.length_singleton] at hi hC
    rcases eq_or_lt_of_le (Nat.lt_succ_iff.mp hi) with rfl | hilt
    · -- the newly written slot
      rw [List.getD_eq_getElem?_getD,
        List.getElem?_set_self (by rw [hdlen]; exact Nat.mod_lt _ (Nat.pos_pow_of_pos c (by norm_num))),
        List.getD_eq_getElem?_getD, List.getElem?_concat_length]
    · -- an older slot, untouched by this write
      have hne : h.length % 2^c ≠ i % 2^c := by
        intro heq
        have h1 := Nat.div_add_mod h.length (2^c)
        have h2 := Nat.div_add_mod i (2^c)
        rw [heq] at h1
        rcases lt_trichotomy (i / 2^c) (h.length / 2^c) with hq | hq | hq
        · have hstep : 2^c * (i / 2^c) + 2^c ≤ 2^c * (h.length / 2^c) := by
            calc 2^c * (i / 2^c) + 2^c = 2^c * (i / 2^c + 1) := by ring
            _ ≤ 2^c * (h.length / 2^c) := Nat.mul_le_mul_left _ hq
          omega
        · rw [hq] at h2
          omega
        · have hstep : 2^c * (h.length / 2^c) + 2^c ≤ 2^c * (i / 2^c) := by
            calc 2^c * (h.length / 2^c) + 2^c = 2^c * (h.length / 2^c + 1) := by ring
            _ ≤ 2^c * (i / 2^c) := Nat.mul_le_mul_left _ hq
          omega
      rw [List.getD_eq_getElem?_getD, List.getElem?_set_ne hne]
      rw [show (h ++ [s]).getD i ⟨0, 0⟩ = h.getD i ⟨0, 0⟩ from by
        rw [List.getD_eq_getElem?_getD, List.getD_eq_getElem?_getD,
          List.getElem?_append, if_pos hilt]]
      rw [← List.getD_eq_getElem?_getD]
      exact ih i hilt (by omega)

theorem map_getD_range {α : Type} (l : List α) (d : α) :
    (List.range l.length).map (fun i => l.getD i d) = l := by
  induction l with
  | nil => rfl
  | cons x xs ih =>
    rw [List.length_cons, List.range_succ_eq_map, List.map_cons, List.map_map]
    simp only [Function.comp_def, Nat.succ_eq_add_one, List.getD_cons_succ,
      List.getD_cons_zero]
    rw [ih]

theorem map_getD_range' {α : Type} (l : List α) (d : α) (n : ℕ) :
    (List.range' n (l.length - n)).map (fun i => l.getD i d) = l.drop n := by
  rw [List.range'_eq_map_range, List.map_map]
  have hlen : (l.drop n).length = l.length - n := List.length_drop n l
  have hdrop : ∀ i, (l.drop n).getD i d = l.getD (n + i) d := by
    intro i
    rw [List.getD_eq_getElem?_getD, List.getD_eq_getElem?_getD, List.getElem?_drop]
  calc (List.range (l.length - n)).map ((fun i => l.getD i d) ∘ (fun x => n + x))
      = (List.range (l.drop n).length).map (fun i => (l.drop n).getD i d) := by
        rw [hlen]
        apply List.map_congr_left
        intro i _
        exact (hdrop i).symm
    _ = l.drop n := map_getD_range (l.drop n) d

/-- C7: a snapshot returns exactly the samples of the retained suffix (the
last `min (writes, capacity)` pushes) whose timestamp is at least
`latest_time - window_seconds`, in write order, and its length never
exceeds the capacity — in every ring state, including after the write index
has wrapped past the capacity. -/
theorem snapshot_spec (c : ℕ) (h : List Sample) (lt w : ℚ) :
    (pushAll (SampleRing.init (2^c)) h).snapshot lt w =
      (h.drop (h.length - 2^c)).filter (fun s => decide (lt - w ≤ s.t)) ∧
    ((pushAll (SampleRing.init (2^c)) h).snapshot lt w).length ≤ 2^c := by
  have hcap : (pushAll (SampleRing.init (2^c)) h).capacity = 2^c :=
    pushAll_capacity _ h
  have hwidx : (pushAll (SampleRing.init (2^c)) h).write_index = h.length := by
    simp [pushAll_write_index, SampleRing.init]
  have hCpos : 0 < 2^c := Nat.pos_pow_of_pos c (by norm_num)
  have hmain : (pushAll (SampleRing.init (2^c)) h).snapshot lt w =
      (h.drop (h.length - 2^c)).filter (fun s => decide (lt - w ≤ s.t)) := by
    unfold SampleRing.snapshot
    rw [hcap, hwidx]
    rcases Nat.eq_zero_or_pos h.length with hlen | hlen
    · rw [if_pos hlen]
      have : h = [] := List.length_eq_zero.mp hlen
      subst this
      simp
    · rw [if_neg (by omega)]
      dsimp only
      have hstart : (if h.length > 2^c then h.length - 2^c else 0) = h.length - 2^c := by
        split
        · rfl
        · omega
      rw [hstart]
      have hmap : (List.range' (h.length - 2^c) (h.length - (h.length - 2^c))).map
            (fun i => (pushAll (SampleRing.init (2^c)) h).data.getD
              (i &&& (2^c - 1)) ⟨0, 0⟩) =
          h.drop (h.length - 2^c) := by
        have hstep : ∀ i ∈ List.range' (h.length - 2^c) (h.length - (h.length - 2^c)),
            (pushAll (SampleRing.init (2^c)) h).data.getD (i &&& (2^c - 1)) ⟨0, 0⟩ =
              h.getD i ⟨0, 0⟩ := by
          intro i hi
          obtain ⟨h1, h2⟩ := List.mem_range'_1.mp hi
          rw [Nat.and_pow_two_sub_one_eq_mod]
          exact pushAll_slot c h i (by omega) (by omega)
        rw [List.map_congr_left hstep]
        exact map_getD_range' h ⟨0, 0⟩ (h.length - 2^c)
      rw [hmap]
  refine ⟨hmain, ?_⟩
  rw [hmain]
  calc ((h.drop (h.length - 2^c)).filter (fun s => decide (lt - w ≤ s.t))).length
      ≤ (h.drop (h.length - 2^c)).length := List.length_filter_le _ _
  _ ≤ 2^c := by
      rw [List.length_drop]
      omega

/-! ## Virtual-output enable (FilteredForwarder, part_000 lines 63-98, 183-194)

```
void enable_output(bool e) {
    if (e && !_ready) ensure_ready();
    if (_ready) {
        if (e) {
            VIGEM_ERROR replug_err = VIGEM_ERROR_NONE;
            if (_client && _target) {
                vigem_target_remove(_client, _target);
                replug_err = vigem_target_add(_client, _target);
            }
            if (!VIGEM_SUCCESS(replug_err)) {
                _last_update_status = format_error(replug_err);
            }
        }
        _enabled.store(e, std::memory_order_release);
        if (e) {
            XUSB_REPORT rep{};  // neutral: all fields zero
            ...
            VIGEM_ERROR err = vigem_target_x360_update(_client, _target, rep);
            if (!VIGEM_SUCCESS(err)) {
                _last_update_status = format_error(err);
            } else {
                if(!_last_update_status.empty()) _last_update_status.clear();
            }
        }
    } else {
        _enabled.store(false, std::memory_order_release);
    }
}
```
`ensure_ready` retries the constructor sequence (alloc, connect, target
alloc, target add) and sets `_ready`/`_status`. The ViGEm bus is external;
its outcomes are an oracle (`VigemEnv`), and the calls the code issues are
collected as an event list. When `_ready` holds, `_client` and `_target`
are non-null, so the re-plug branch always runs. The second revision in
src/src/xinput/filtered_forwarder.hpp line 255 is the reduced form
`if (_ready) _enabled.store(e); else _enabled.store(false);` with no
re-plug, covered by the same invariant theorems. -/

structure PadReport where
  buttons : ℕ
  lt : ℕ
  rt : ℕ
  lx : ℤ
  ly : ℤ
  rx : ℤ
  ry : ℤ
deriving DecidableEq

def neutralReport : PadReport :=
  { buttons := 0, lt := 0, rt := 0, lx := 0, ly := 0, rx := 0, ry := 0 }

inductive VigemOp where
  | removeTarget
  | addTarget
  | update (rep : PadReport)
deriving DecidableEq

structure FwdState where
  ready : Bool
  enabled : Bool
  status : String
  last_update_status : String
deriving DecidableEq

/-- Oracle for one interaction with the ViGEm backend: whether each
initialization step would succeed, and the error strings (if any) returned
by the re-plug add and by the neutral update. -/
structure VigemEnv where
  allocOk : Bool
  connectOk : Bool
  targetAllocOk : Bool
  addOk : Bool
  replugAddErr : Option String
  updateErr : Option String
deriving DecidableEq

def ensure_ready (env : VigemEnv) (s : FwdState) : FwdState :=
  if s.ready then s
  else if ¬env.allocOk then { s with status := "alloc failed" }
  else if ¬env.connectOk then { s with status := "connect failed" }
  else if ¬env.targetAllocOk then { s with status := "target alloc failed" }
  else if ¬env.addOk then { s with status := "target add failed" }
  else { s with ready := true, status := "Ready" }

def enable_output (env : VigemEnv) (e : Bool) (s : FwdState) :
    FwdState × List VigemOp :=
  let s1 := if e ∧ ¬s.ready then ensure_ready env s else s
  if s1.ready then
    let s2 := if e then
        (match env.replugAddErr with
          | some msg => { s1 with last_update_status := msg }
          | none => s1)
      else s1
    let ops := if e then [VigemOp.removeTarget, VigemOp.addTarget] else []
    let s3 := { s2 with enabled := e }
    if e then
      match env.updateErr with
      | some msg =>
        ({ s3 with last_update_status := msg }, ops ++ [VigemOp.update neutralReport])
      | none =>
        ({ s3 with last_update_status := "" }, ops ++ [VigemOp.update neutralReport])
    else (s3, ops)
  else ({ s1 with enabled := false }, [])

def run_enable_calls (calls : List (VigemEnv × Bool)) (s : FwdState) : FwdState :=
  calls.foldl (fun st c => (enable_output c.1 c.2 st).1) s

/-- A ready state: the constructor succeeded. -/
def readyState : FwdState :=
  { ready := true, enabled := false, status := "Ready", last_update_status := "" }

/-- An environment in which the neutral update fails with `BUS_NOT_FOUND`. -/
def envUpdateFails : VigemEnv :=
  { allocOk := true, connectOk := true, targetAllocOk := true, addOk := true,
    replugAddErr := none, updateErr := some "BUS_NOT_FOUND" }

/-- C9 counterexample: enabling with a ready backend while the neutral
update fails leaves the output *enabled* (`output_enabled()` is true) —
the error is only recorded in the update-status string; the enable state
does not return to Disabled as claimed. -/
theorem enable_output_failure_counterexample :
    (enable_output envUpdateFails true readyState).1.enabled = true ∧
    (enable_output envUpdateFails true readyState).1.last_update_status =
      "BUS_NOT_FOUND" ∧
    envUpdateFails.updateErr ≠ none := by
  refine ⟨rfl, rfl, by simp [envUpdateFails]⟩

/-- C9 (amended): enabling the output with a ready backend re-plugs the
virtual target (remove followed by add) and then sends exactly one neutral
report (all buttons clear, triggers 0, axes 0); if the neutral update
fails, its error string is captured in the update status (and cleared again
on success), but the enable state remains Enabled in all cases —
`output_enabled()` is true after `enable_output(true)` whenever the backend
is ready, regardless of re-plug or update errors. -/
theorem enable_output_amended (env : VigemEnv) (s : FwdState)
    (hs : s.ready = true) :
    (enable_output env true s).2 =
      [VigemOp.removeTarget, VigemOp.addTarget, VigemOp.update neutralReport] ∧
    (enable_output env true s).1.enabled = true ∧
    (∀ msg, env.updateErr = some msg →
      (enable_output env true s).1.last_update_status = msg) ∧
    (env.updateErr = none →
      (enable_output env true s).1.last_update_status = "") ∧
    (enable_output env false s).1.enabled = false := by
  unfold enable_output
  have h1 : (if true ∧ ¬s.ready then ensure_ready env s else s) = s := by
    rw [if_neg]
    simp [hs]
  have h0 : (if false ∧ ¬s.ready then ensure_ready env s else s) = s := by
    rw [if_neg]
    simp
  rw [h1, h0]
  rw [if_pos hs, if_pos hs]
  cases henv : env.updateErr with
  | some msg =>
    cases env.replugAddErr with
    | some msg2 =>
      refine ⟨rfl, rfl, ?_, ?_, rfl⟩
      · intro m hm
        cases hm
        rfl
      · intro hm
        simp at hm
    | none =>
      refine ⟨rfl, rfl, ?_, ?_, rfl⟩
      · intro m hm
        cases hm
        rfl
      · intro hm
        simp at hm
  | none =>
    cases env.replugAddErr with
    | some msg2 =>
      refine ⟨rfl, rfl, ?_, ?_, rfl⟩
      · intro m hm
        simp at hm
      · intro _
        rfl
    | none =>
      refine ⟨rfl, rfl, ?_, ?_, rfl⟩
      · intro m hm
        simp at hm
      · intro _
        rfl

/-- C9 witness: the amended theorem at the ready state with a failing
neutral update. -/
theorem enable_output_amended_witness :
    (enable_output envUpdateFails true readyState).2 =
      [VigemOp.removeTarget, VigemOp.addTarget, VigemOp.update neutralReport] :=
  (enable_output_amended envUpdateFails readyState rfl).1

/-- An environment in which the backend cannot be made ready (allocation of
the ViGEm client fails). -/
def VigemEnv.initFails (env : VigemEnv) : Prop :=
  env.allocOk = false ∨ env.connectOk = false ∨
    env.targetAllocOk = false ∨ env.addOk = false

theorem ensure_ready_of_initFails (env : VigemEnv) (s : FwdState)
    (hr : s.ready = false) (hf : env.initFails) :
    (ensure_ready env s).ready = false := by
  unfold ensure_ready
  rw [if_neg (by simp [hr])]
  rcases hf with h | h | h | h <;> rw [h]
  · rw [if_pos (by simp)]
    exact hr
  · split
    · exact hr
    · rw [if_pos (by simp)]
      exact hr
  · split
    · exact hr
    · split
      · exact hr
      · rw [if_pos (by simp)]
        exact hr
  · split
    · exact hr
    · split
      · exact hr
      · split
        · exact hr
        · rw [if_pos (by simp)]
          exact hr

/-- One `enable_output` call can leave the output enabled only with the
backend ready, whatever the previous state was. -/
theorem enable_output_step_inv (env : VigemEnv) (e : Bool) (s : FwdState) :
    (enable_output env e s).1.enabled = true → (enable_output env e s).1.ready = true := by
  unfold enable_output
  set s1 := if e ∧ ¬s.ready then ensure_ready env s else s with hs1
  cases hr : s1.ready with
  | true =>
    rw [if_pos hr]
    cases e with
    | true =>
      cases env.updateErr with
      | some msg =>
        cases env.replugAddErr with
        | some m2 => intro _; simpa [s1] using hr
        | none => intro _; simpa [s1] using hr
      | none =>
        cases env.replugAddErr with
        | some m2 => intro _; simpa [s1] using hr
        | none => intro _; simpa [s1] using hr
    | false =>
      intro h
      simp at h
  | false =>
    rw [if_neg (by simp [hr])]
    intro h
    simp at h

/-- If the backend is not ready and cannot be made ready, an
`enable_output` call leaves it not ready and the output disabled. -/
theorem enable_output_step_unready (env : VigemEnv) (e : Bool) (s : FwdState)
    (hr : s.ready = false) (hf : env.initFails) :
    (enable_output env e s).1.ready = false ∧
      (enable_output env e s).1.enabled = false := by
  unfold enable_output
  have hs1 : (if e ∧ ¬s.ready then ensure_ready env s else s).ready = false := by
    split
    · exact ensure_ready_of_initFails env s hr hf
    · exact hr
  rw [if_neg (by rw [hs1]; simp)]
  exact ⟨hs1, rfl⟩

/-- C10: `output_enabled()` implies the backend initialized successfully,
after any sequence of `enable_output` calls; and if the backend is not
ready and every initialization attempt fails, any sequence of calls
(including `enable_output(true)`) leaves the output disabled rather than
failing. -/
theorem output_enable_invariant (calls : List (VigemEnv × Bool)) (s : FwdState)
    (hinv : s.enabled = true → s.ready = true) :
    ((run_enable_calls calls s).enabled = true →
      (run_enable_calls calls s).ready = true) ∧
    (s.ready = false → (∀ c ∈ calls, c.1.initFails) →
      (run_enable_calls calls s).ready = false ∧
        (run_enable_calls calls s).enabled = false) := by
  induction calls generalizing s with
  | nil => exact ⟨hinv, fun hr _ => ⟨hr, by by_contra h; simp at h; exact absurd (hinv h) (by simp [hr])⟩⟩
  | cons c rest ih =>
    constructor
    · have hstep := enable_output_step_inv c.1 c.2 s
      have := (ih (enable_output c.1 c.2 s).1 hstep).1
      simpa [run_enable_calls] using this
    · intro hr hf
      have hstep := enable_output_step_unready c.1 c.2 s hr
        (hf c (List.mem_cons_self c rest))
      have hrec := (ih (enable_output c.1 c.2 s).1
        (fun h => absurd h (by simp [hstep.2]))).2 hstep.1
        (fun c2 h2 => hf c2 (List.mem_cons_of_mem c h2))
      simpa [run_enable_calls] using hrec

/-- An environment in which every backend initialization step fails. -/
def envAllFail : VigemEnv :=
  { allocOk := false, connectOk := false, targetAllocOk := false,
    addOk := false, replugAddErr := none, updateErr := none }

/-- The state of a forwarder whose constructor failed. -/
def unreadyState : FwdState :=
  { ready := false, enabled := false, status := "Not initialized",
    last_update_status := "" }

/-- C10 witness: starting not ready with a backend that cannot initialize,
a call of `enable_output(true)` leaves `output_enabled()` false. -/
theorem output_enable_invariant_witness :
    (run_enable_calls [(envAllFail, true)] unreadyState).enabled = false :=
  ((output_enable_invariant [(envAllFail, true)] unreadyState (by simp [unreadyState])).2
    rfl (fun c hc => by
      rw [List.mem_singleton] at hc
      subst hc
      left
      rfl)).2
